import Mathlib

/-!
Verification of the quad-precision compatibility shim
(`compiler_rt_stubs.c`): comparison, arithmetic and conversion
routines for a 128-bit float interface backed by the platform's
`long double` type.

A `long double` datum is modelled by `FP`: NaN, a signed infinity, or a
finite value (sign bit plus nonnegative rational magnitude, so the two
signed zeros are distinct data with equal value).  The native C
relational operators are modelled by the four-way comparison `fcmp`
(IEEE 754: NaN is unordered against everything, signed zeros compare
equal).  Casts and arithmetic round to nearest, ties to even, into a
binary format described by `Fmt`; on the iOS targets this shim is
written for, `long double` is IEEE binary64 (`ext64` below), as the
source's own header comment records ("64-bit on ARM").
-/

/-- Outcome of a native floating-point comparison (IEEE-754 semantics of
the C relational operators on `long double`): less, equal, greater, or
unordered (at least one operand NaN). -/
inductive FCmp where
  | lt : FCmp
  | eq : FCmp
  | gt : FCmp
  | unord : FCmp
deriving DecidableEq

/-- Swap of a comparison outcome under exchange of the two operands. -/
def FCmp.swap : FCmp → FCmp
  | .lt => .gt
  | .gt => .lt
  | .eq => .eq
  | .unord => .unord

/-- A `long double` datum as manipulated by the shim: NaN, a signed
infinity, or a finite value given by a sign and a nonnegative rational
magnitude (`fin true 0` and `fin false 0` are the two signed zeros). -/
inductive FP where
  | nan : FP
  | inf : Bool → FP
  | fin : Bool → ℚ → FP
deriving DecidableEq

/-- The signed rational value of a finite datum: magnitude `m` with sign
bit `s` (`true` = negative). -/
def sval (s : Bool) (m : ℚ) : ℚ := if s then -m else m

/-- Three-way comparison of two rational values. -/
def qcmp (x y : ℚ) : FCmp :=
  if x < y then .lt else if x = y then .eq else .gt

/-- Native comparison of two `long double` data, per IEEE 754: any NaN
operand is unordered; infinities compare by sign; finite data compare by
signed value (so the two zeros compare equal).  This is the semantics of
the C operators `<`, `==`, `>`, `>=`, `<=`, `!=` used by the shim:
`a < b` holds iff `fcmp a b = .lt`, `a == b` iff `.eq`, and so on, with
every operator except `!=` false on unordered operands. -/
def fcmp : FP → FP → FCmp
  | .nan, _ => .unord
  | _, .nan => .unord
  | .inf s1, .inf s2 => if s1 = s2 then .eq else if s1 then .lt else .gt
  | .inf s, .fin _ _ => if s then .lt else .gt
  | .fin _ _, .inf s => if s then .gt else .lt
  | .fin s1 m1, .fin s2 m2 => qcmp (sval s1 m1) (sval s2 m2)

/-- `int __eqtf2(fp128 a, fp128 b) { return !(a == b); }` -/
def eqtf2 (a b : FP) : ℤ := if fcmp a b = .eq then 0 else 1

/-- `int __netf2(fp128 a, fp128 b) { return a != b; }` -/
def netf2 (a b : FP) : ℤ := if fcmp a b ≠ .eq then 1 else 0

/-- `__lttf2`: `if (a < b) return -1; if (a == b) return 0; return 1;` -/
def lttf2 (a b : FP) : ℤ :=
  if fcmp a b = .lt then -1 else if fcmp a b = .eq then 0 else 1

/-- `__gttf2`: `if (a > b) return 1; if (a == b) return 0; return -1;` -/
def gttf2 (a b : FP) : ℤ :=
  if fcmp a b = .gt then 1 else if fcmp a b = .eq then 0 else -1

/-- `__getf2`: `if (a >= b) return 0; return -1;` (C `>=` is true exactly
when the operands compare greater or equal, false on unordered). -/
def getf2 (a b : FP) : ℤ :=
  if fcmp a b = .gt ∨ fcmp a b = .eq then 0 else -1

/-- `__letf2`: `if (a <= b) return 0; return 1;` -/
def letf2 (a b : FP) : ℤ :=
  if fcmp a b = .lt ∨ fcmp a b = .eq then 0 else 1

/-- Any non-NaN datum compares equal to itself. -/
theorem fcmp_self (a : FP) (h : a ≠ .nan) : fcmp a a = .eq := by
  cases a with
  | nan => exact absurd rfl h
  | inf s => simp [fcmp]
  | fin s m => simp [fcmp, qcmp]

/-- Exchanging the operands of `qcmp` swaps the outcome. -/
theorem qcmp_swap (x y : ℚ) : qcmp y x = (qcmp x y).swap := by
  rcases lt_trichotomy x y with h | h | h
  · unfold qcmp
    rw [if_pos h, if_neg (asymm h), if_neg h.ne']
    rfl
  · unfold qcmp
    rw [if_neg h.le.not_lt, if_pos h, if_neg h.ge.not_lt, if_pos h.symm]
    rfl
  · unfold qcmp
    rw [if_pos h, if_neg (asymm h), if_neg h.ne']
    rfl

/-- Exchanging the operands of `fcmp` swaps the outcome. -/
theorem fcmp_swap (a b : FP) : fcmp b a = (fcmp a b).swap := by
  cases a with
  | nan => cases b <;> rfl
  | inf s1 =>
    cases b with
    | nan => rfl
    | inf s2 => cases s1 <;> cases s2 <;> rfl
    | fin s2 m2 => cases s1 <;> rfl
  | fin s1 m1 =>
    cases b with
    | nan => rfl
    | inf s2 => cases s2 <;> rfl
    | fin s2 m2 => exact qcmp_swap _ _

/-- C1 (amended): the equality test `__eqtf2` returns `0` on any pair of
operands that compare equal — in particular on `(a, a)` for every
non-NaN `a` — and a nonzero value (namely `1`) on every pair that
compares unequal or unordered.  For `a = NaN` the original claim fails:
`__eqtf2(NaN, NaN) = 1`, since `NaN == NaN` is false. -/
theorem eqtf2_zero_iff_eq (a b : FP) :
    (a ≠ .nan → eqtf2 a a = 0) ∧ (fcmp a b ≠ .eq → eqtf2 a b = 1) := by
  constructor
  · intro h
    simp [eqtf2, fcmp_self a h]
  · intro h
    simp [eqtf2, h]

/-- Witness for C1's amended theorem at concrete inputs. -/
theorem eqtf2_zero_iff_eq_witness :
    eqtf2 (.fin false (mkRat 29 10)) (.fin false (mkRat 29 10)) = 0 ∧
      eqtf2 (.fin false 1) (.fin false 2) = 1 := by
  constructor
  · exact (eqtf2_zero_iff_eq (.fin false (mkRat 29 10)) (.fin false 1)).1
      (by decide)
  · exact (eqtf2_zero_iff_eq (.fin false 2) (.fin false 1)).2 (by decide)

/-- C1 counterexample: the claim "`__eqtf2(a, a)` returns 0 for every
operand `a`" fails at `a = NaN`, where the routine returns 1. -/
theorem eqtf2_nan_nan_ne_zero : eqtf2 .nan .nan ≠ 0 := by decide

/-- C2: `__lttf2` returns `-1` when the operands compare less, `0` when
they compare equal, and `1` in every other case (greater or unordered). -/
theorem lttf2_cases (a b : FP) :
    (fcmp a b = .lt → lttf2 a b = -1) ∧
      (fcmp a b = .eq → lttf2 a b = 0) ∧
      (fcmp a b = .gt ∨ fcmp a b = .unord → lttf2 a b = 1) := by
  refine ⟨fun h => ?_, fun h => ?_, fun h => ?_⟩
  · simp [lttf2, h]
  · simp [lttf2, h]
  · rcases h with h | h <;> simp [lttf2, h]

/-- Witness for C2 at concrete inputs: `1 < 2`, `1 = 1`, and the
unordered pair `(NaN, 1)`. -/
theorem lttf2_cases_witness :
    lttf2 (.fin false 1) (.fin false 2) = -1 ∧
      lttf2 (.fin false 1) (.fin false 1) = 0 ∧
      lttf2 .nan (.fin false 1) = 1 := by
  refine ⟨(lttf2_cases _ _).1 (by decide), (lttf2_cases _ _).2.1 (by decide),
    (lttf2_cases _ _).2.2 (Or.inr (by decide))⟩

/-- C3: `__getf2` returns `0` when the operands compare greater or equal
and `-1` otherwise (less or unordered); `__letf2` returns `0` when they
compare less or equal and `1` otherwise (greater or unordered). -/
theorem getf2_letf2_cases (a b : FP) :
    (fcmp a b = .gt ∨ fcmp a b = .eq → getf2 a b = 0) ∧
      (fcmp a b = .lt ∨ fcmp a b = .unord → getf2 a b = -1) ∧
      (fcmp a b = .lt ∨ fcmp a b = .eq → letf2 a b = 0) ∧
      (fcmp a b = .gt ∨ fcmp a b = .unord → letf2 a b = 1) := by
  refine ⟨fun h => ?_, fun h => ?_, fun h => ?_, fun h => ?_⟩
  · simp [getf2, h]
  · rcases h with h | h <;> simp [getf2, h]
  · simp [letf2, h]
  · rcases h with h | h <;> simp [letf2, h]

/-- Witness for C3 at concrete inputs. -/
theorem getf2_letf2_cases_witness :
    getf2 (.fin false 2) (.fin false 1) = 0 ∧
      getf2 .nan (.fin false 1) = -1 ∧
      letf2 (.fin false 1) (.fin false 2) = 0 ∧
      letf2 .nan (.fin false 1) = 1 := by
  refine ⟨(getf2_letf2_cases _ _).1 (Or.inl (by decide)),
    (getf2_letf2_cases _ _).2.1 (Or.inr (by decide)),
    (getf2_letf2_cases _ _).2.2.1 (Or.inl (by decide)),
    (getf2_letf2_cases _ _).2.2.2 (Or.inr (by decide))⟩

/-- C9: `__eqtf2` and `__netf2` agree on every pair of operands, both
always return `0` or `1`, and the result is `0` exactly when the
operands compare equal (so `1` whenever either operand is NaN). -/
theorem eqtf2_eq_netf2 (a b : FP) :
    eqtf2 a b = netf2 a b ∧ (eqtf2 a b = 0 ∨ eqtf2 a b = 1) ∧
      (eqtf2 a b = 0 ↔ fcmp a b = .eq) := by
  by_cases h : fcmp a b = .eq <;> simp [eqtf2, netf2, h]

/-- Witness for C9 at concrete inputs. -/
theorem eqtf2_eq_netf2_witness :
    eqtf2 .nan (.fin false 1) = netf2 .nan (.fin false 1) ∧
      (eqtf2 .nan (.fin false 1) = 0 ∨ eqtf2 .nan (.fin false 1) = 1) ∧
      (eqtf2 .nan (.fin false 1) = 0 ↔ fcmp .nan (.fin false 1) = .eq) :=
  eqtf2_eq_netf2 .nan (.fin false 1)

/-- C10: the ordered compares are exact duals under argument swap:
`__lttf2(a, b) = -__gttf2(b, a)` for all operands, NaN included. -/
theorem lttf2_neg_gttf2 (a b : FP) : lttf2 a b = -gttf2 b a := by
  rw [gttf2, fcmp_swap a b]
  rcases h : fcmp a b with _ | _ | _ | _ <;> simp [lttf2, h, FCmp.swap]

/-! ### Binary floating-point formats and round-to-nearest-even

The C routines delegate arithmetic and conversions to native operators
on `long double` and `float`.  Their semantics (IEEE 754) is: compute
the exact rational result, then round it to nearest, ties to even, into
the destination format, overflowing to infinity past the largest finite
value.  The machinery below implements that rounding on exact rationals.
-/

/-- Fuel-driven `⌊log₂ n⌋` on naturals (`0` for `n ≤ 1`); correct
whenever the fuel is at least the recursion depth, e.g. fuel `= n`. -/
def flog2Nat : ℕ → ℕ → ℕ
  | 0, _ => 0
  | f + 1, n => if n < 2 then 0 else flog2Nat f (n / 2) + 1

/-- Fuel-driven search for the least `k` (starting from `k0`) with
`b ≤ a * 2^k`; returns the last fuel-permitted `k` when none is found. -/
def findPow (a b : ℕ) : ℕ → ℕ → ℕ
  | 0, k0 => k0
  | f + 1, k0 => if b ≤ a * 2 ^ k0 then k0 else findPow a b f (k0 + 1)

/-- `⌊log₂ q⌋` of a positive rational, computed on its reduced
numerator and denominator. -/
def rlog2 (q : ℚ) : ℤ :=
  if q.den ≤ q.num.toNat then (flog2Nat q.num.toNat (q.num.toNat / q.den) : ℤ)
  else -(findPow q.num.toNat q.den q.den 0 : ℤ)

/-- The rational `2^e` for an integer exponent, built with `mkRat` so
that it evaluates by kernel reduction. -/
def pow2 : ℤ → ℚ
  | .ofNat k => mkRat (2 ^ k) 1
  | .negSucc k => mkRat 1 (2 ^ (k + 1))

/-- The rational `n * 2^e`, built with `mkRat` so that it evaluates by
kernel reduction. -/
def qOfScaled (n : ℕ) : ℤ → ℚ
  | .ofNat k => mkRat ((n * 2 ^ k : ℕ) : ℤ) 1
  | .negSucc k => mkRat n (2 ^ (k + 1))

/-- Round `a / b` to the nearest natural, ties to even. -/
def roundNE (a b : ℕ) : ℕ :=
  if 2 * (a % b) < b then a / b
  else if b < 2 * (a % b) then a / b + 1
  else if (a / b) % 2 = 0 then a / b else a / b + 1

/-- The numerator/denominator pair representing `q / 2^e` (for a
nonnegative `q`), over which `roundNE` computes the rounded mantissa. -/
def scaleNum (q : ℚ) : ℤ → ℕ × ℕ
  | .ofNat k => (q.num.toNat, q.den * 2 ^ k)
  | .negSucc k => (q.num.toNat * 2 ^ (k + 1), q.den)

/-- A binary floating-point format: precision (significand bits) and the
least and greatest exponents of the unit in the last place. -/
structure Fmt where
  prec : ℕ
  emin : ℤ
  emax : ℤ

/-- The largest finite value of a format. -/
def Fmt.maxFin (F : Fmt) : ℚ := qOfScaled (2 ^ F.prec - 1) F.emax

/-- IEEE binary32 (`float`): 24-bit significand, subnormal ulp `2^-149`,
largest finite value `(2^24 - 1) * 2^104`. -/
def fmt32 : Fmt := ⟨24, -149, 104⟩

/-- IEEE binary64: what `long double` is on the ARM iOS targets this
shim is compiled for (per the source's own header comment). -/
def ext64 : Fmt := ⟨53, -1074, 971⟩

/-- The ulp exponent chosen when rounding a positive rational into
format `F`: large enough for the mantissa to fit in `F.prec` bits, but
never below `F.emin` (subnormal range). -/
def rExp (F : Fmt) (q : ℚ) : ℤ := max F.emin (rlog2 q + 1 - F.prec)

/-- The round-to-nearest-even mantissa of a positive rational at the
chosen ulp exponent. -/
def rMant (F : Fmt) (q : ℚ) : ℕ :=
  roundNE (scaleNum q (rExp F q)).1 (scaleNum q (rExp F q)).2

/-- Round a positive rational into format `F` with sign `s`: nearest
representable, ties to even, overflowing to infinity past `F.maxFin`
(IEEE round-to-nearest overflow rule). -/
def roundQ (F : Fmt) (s : Bool) (q : ℚ) : FP :=
  if F.maxFin < qOfScaled (rMant F q) (rExp F q) then .inf s
  else .fin s (qOfScaled (rMant F q) (rExp F q))

/-- A rational is representable in format `F` when it is a mantissa
below `2^F.prec` times a power of two no smaller than `F.emin`, and
does not exceed the largest finite value. -/
def Fmt.Rep (F : Fmt) (q : ℚ) : Prop :=
  ∃ n : ℕ, ∃ e : ℤ, n < 2 ^ F.prec ∧ F.emin ≤ e ∧ q = qOfScaled n e ∧
    q ≤ F.maxFin

/-! ### Facts about the rounding machinery -/

theorem pow2_eq_zpow (e : ℤ) : pow2 e = (2 : ℚ) ^ e := by
  cases e with
  | ofNat k =>
    show mkRat (2 ^ k) 1 = (2 : ℚ) ^ (k : ℤ)
    rw [Rat.mkRat_one, zpow_natCast]
    push_cast
    rfl
  | negSucc k =>
    show mkRat 1 (2 ^ (k + 1)) = (2 : ℚ) ^ Int.negSucc k
    rw [zpow_negSucc, Rat.mkRat_eq_div]
    push_cast
    rw [one_div]

theorem pow2_pos (e : ℤ) : 0 < pow2 e := by
  rw [pow2_eq_zpow]; positivity

theorem pow2_lt_pow2 {x y : ℤ} : pow2 x < pow2 y ↔ x < y := by
  rw [pow2_eq_zpow, pow2_eq_zpow]
  exact zpow_lt_zpow_iff_right₀ one_lt_two

theorem pow2_add (x y : ℤ) : pow2 (x + y) = pow2 x * pow2 y := by
  rw [pow2_eq_zpow, pow2_eq_zpow, pow2_eq_zpow, zpow_add₀ (two_ne_zero)]

theorem pow2_natCast (k : ℕ) : pow2 (k : ℤ) = ((2 ^ k : ℕ) : ℚ) := by
  rw [pow2_eq_zpow, zpow_natCast]
  push_cast
  rfl

theorem qOfScaled_eq (n : ℕ) (e : ℤ) : qOfScaled n e = (n : ℚ) * pow2 e := by
  cases e with
  | ofNat k =>
    show mkRat ((n * 2 ^ k : ℕ) : ℤ) 1 = (n : ℚ) * pow2 (Int.ofNat k)
    rw [show pow2 (Int.ofNat k) = mkRat (2 ^ k) 1 from rfl, Rat.mkRat_one,
      Rat.mkRat_one]
    push_cast
    ring
  | negSucc k =>
    show mkRat n (2 ^ (k + 1)) = (n : ℚ) * pow2 (Int.negSucc k)
    rw [show pow2 (Int.negSucc k) = mkRat 1 (2 ^ (k + 1)) from rfl,
      Rat.mkRat_eq_div, Rat.mkRat_eq_div]
    push_cast
    ring

theorem flog2Nat_le (f : ℕ) : ∀ n : ℕ, 1 ≤ n → 2 ^ flog2Nat f n ≤ n := by
  induction f with
  | zero => intro n h; simpa [flog2Nat] using h
  | succ f ih =>
    intro n h
    rw [flog2Nat]
    split
    · simpa using h
    · rename_i h2
      push_neg at h2
      have h1 : 1 ≤ n / 2 := (Nat.one_le_div_iff (by norm_num)).mpr h2
      calc 2 ^ (flog2Nat f (n / 2) + 1) = 2 ^ flog2Nat f (n / 2) * 2 := by ring
        _ ≤ n / 2 * 2 := Nat.mul_le_mul_right 2 (ih _ h1)
        _ ≤ n := Nat.div_mul_le_self n 2

theorem findPow_le (a b : ℕ) (f : ℕ) : ∀ k0 : ℕ, b ≤ a * 2 ^ (k0 + f) →
    b ≤ a * 2 ^ findPow a b f k0 := by
  induction f with
  | zero => intro k0 h; simpa [findPow] using h
  | succ f ih =>
    intro k0 h
    rw [findPow]
    split
    · assumption
    · apply ih (k0 + 1)
      have he : k0 + 1 + f = k0 + (f + 1) := by omega
      rw [he]
      exact h

theorem num_toNat_cast (q : ℚ) (h : 0 ≤ q) :
    ((q.num.toNat : ℕ) : ℚ) = q * q.den := by
  have hden : (q.den : ℚ) ≠ 0 := by
    exact_mod_cast q.den_pos.ne'
  have hn : (q.num.toNat : ℤ) = q.num := Int.toNat_of_nonneg (Rat.num_nonneg.mpr h)
  calc ((q.num.toNat : ℕ) : ℚ) = ((q.num.toNat : ℤ) : ℚ) := by push_cast; ring
    _ = (q.num : ℚ) := by rw [hn]
    _ = q * q.den := (div_eq_iff hden).mp (Rat.num_div_den q)

theorem rlog2_le (q : ℚ) (h0 : 0 < q) : pow2 (rlog2 q) ≤ q := by
  have hnum : 0 < q.num := Rat.num_pos.mpr h0
  have ha : 0 < q.num.toNat := by omega
  have hden : (0 : ℚ) < q.den := by exact_mod_cast q.den_pos
  have hq : ((q.num.toNat : ℕ) : ℚ) = q * q.den := num_toNat_cast q h0.le
  unfold rlog2
  split
  · rename_i hle
    rw [pow2_eq_zpow, zpow_natCast]
    have h1 : 2 ^ flog2Nat q.num.toNat (q.num.toNat / q.den) ≤
        q.num.toNat / q.den :=
      flog2Nat_le _ _ ((Nat.one_le_div_iff q.den_pos).mpr hle)
    have h2 : ((q.num.toNat / q.den : ℕ) : ℚ) ≤ q := by
      calc ((q.num.toNat / q.den : ℕ) : ℚ) ≤ (q.num.toNat : ℚ) / q.den :=
            Nat.cast_div_le
        _ = q * q.den / q.den := by rw [hq]
        _ = q := mul_div_cancel_right₀ q hden.ne'
    calc (2 : ℚ) ^ flog2Nat q.num.toNat (q.num.toNat / q.den)
        = ((2 ^ flog2Nat q.num.toNat (q.num.toNat / q.den) : ℕ) : ℚ) := by
          push_cast; rfl
      _ ≤ ((q.num.toNat / q.den : ℕ) : ℚ) := by exact_mod_cast h1
      _ ≤ q := h2
  · have hfind : q.den ≤ q.num.toNat * 2 ^ findPow q.num.toNat q.den q.den 0 := by
      apply findPow_le
      calc q.den ≤ 2 ^ q.den := (Nat.lt_two_pow _).le
        _ ≤ q.num.toNat * 2 ^ q.den := Nat.le_mul_of_pos_left _ ha
        _ = q.num.toNat * 2 ^ (0 + q.den) := by rw [Nat.zero_add]
    rw [pow2_eq_zpow, zpow_neg, zpow_natCast]
    have hpow : (0 : ℚ) < 2 ^ findPow q.num.toNat q.den q.den 0 := by positivity
    have h2 : (q.den : ℚ) ≤ (q.num.toNat : ℚ) *
        2 ^ findPow q.num.toNat q.den q.den 0 := by exact_mod_cast hfind
    rw [hq] at h2
    have h3 : (1 : ℚ) ≤ q * 2 ^ findPow q.num.toNat q.den q.den 0 := by
      have h2' : (1 : ℚ) * q.den ≤
          q * 2 ^ findPow q.num.toNat q.den q.den 0 * q.den := by
        calc (1 : ℚ) * q.den = q.den := one_mul _
          _ ≤ q * q.den * 2 ^ findPow q.num.toNat q.den q.den 0 := h2
          _ = q * 2 ^ findPow q.num.toNat q.den q.den 0 * q.den := by ring
      exact (mul_le_mul_right hden).mp h2'
    rw [inv_eq_one_div, div_le_iff₀ hpow]
    exact h3

theorem roundNE_mul (N b : ℕ) (hb : 0 < b) : roundNE (N * b) b = N := by
  unfold roundNE
  rw [Nat.mul_mod_left, Nat.mul_div_cancel N hb]
  simp [hb]

theorem roundNE_cast (A B N : ℕ) (hb : 0 < B) (h : (A : ℚ) = N * B) :
    roundNE A B = N := by
  have hA : A = N * B := by exact_mod_cast h
  rw [hA, roundNE_mul N B hb]

theorem roundNE_scale (q : ℚ) (h0 : 0 ≤ q) (e : ℤ) (N : ℕ)
    (h : q = (N : ℚ) * pow2 e) :
    roundNE (scaleNum q e).1 (scaleNum q e).2 = N := by
  have h1 : ((q.num.toNat : ℕ) : ℚ) = q * q.den := num_toNat_cast q h0
  cases e with
  | ofNat k =>
    apply roundNE_cast _ _ _ (Nat.mul_pos q.den_pos (Nat.pos_pow_of_pos k (by norm_num)))
    show ((q.num.toNat : ℕ) : ℚ) = N * ((q.den * 2 ^ k : ℕ) : ℚ)
    rw [h1]
    have h2 : q = (N : ℚ) * 2 ^ k := by
      rw [h, pow2_eq_zpow]
      norm_num [zpow_natCast]
    push_cast
    linear_combination (q.den : ℚ) * h2
  | negSucc k =>
    apply roundNE_cast _ _ _ q.den_pos
    show ((q.num.toNat * 2 ^ (k + 1) : ℕ) : ℚ) = N * (q.den : ℚ)
    have h2 : q * 2 ^ (k + 1) = (N : ℚ) := by
      have hne : ((2 : ℚ)) ^ (k + 1) ≠ 0 := pow_ne_zero _ two_ne_zero
      rw [h, pow2_eq_zpow, zpow_negSucc]
      field_simp
    push_cast
    rw [h1]
    linear_combination (q.den : ℚ) * h2

theorem roundQ_exact (F : Fmt) (s : Bool) (q : ℚ) (h0 : 0 < q)
    (h : F.Rep q) : roundQ F s q = .fin s q := by
  obtain ⟨n0, e0, hn, he, hq, hmax⟩ := h
  have hlog : rlog2 q < F.prec + e0 := by
    have h1 : pow2 (rlog2 q) ≤ q := rlog2_le q h0
    have h2 : q < pow2 (F.prec + e0) := by
      rw [hq, qOfScaled_eq]
      calc (n0 : ℚ) * pow2 e0 < ((2 ^ F.prec : ℕ) : ℚ) * pow2 e0 := by
            apply mul_lt_mul_of_pos_right _ (pow2_pos e0)
            exact_mod_cast hn
        _ = pow2 (F.prec : ℤ) * pow2 e0 := by rw [pow2_natCast]
        _ = pow2 (F.prec + e0) := (pow2_add _ _).symm
    exact pow2_lt_pow2.mp (lt_of_le_of_lt h1 h2)
  have hee0 : rExp F q ≤ e0 := by
    unfold rExp
    apply max_le he
    omega
  set E := rExp F q with hE
  set D := (e0 - E).toNat with hD
  have hd : e0 = E + (D : ℤ) := by omega
  have hN : q = ((n0 * 2 ^ D : ℕ) : ℚ) * pow2 E := by
    rw [hq, qOfScaled_eq, hd, pow2_add, pow2_natCast]
    push_cast
    ring
  have hm : rMant F q = n0 * 2 ^ D := by
    unfold rMant
    exact roundNE_scale q h0.le E _ hN
  have hval : qOfScaled (rMant F q) E = q := by
    rw [hm, qOfScaled_eq, ← hN]
  unfold roundQ
  rw [← hE, hval, if_neg (not_lt.mpr hmax)]

/-! ### The shim's arithmetic and conversion routines -/

/-- Native conversion of a floating datum into format `F` (the
semantics of a C cast between floating types): NaN and infinities are
preserved, signed zeros are preserved, every other finite value is
rounded to nearest, ties to even, overflowing to infinity. -/
def cvt (F : Fmt) : FP → FP
  | .nan => .nan
  | .inf s => .inf s
  | .fin s m => if m = 0 then .fin s 0 else roundQ F s m

/-- `fp128 __extendsftf2(float a) { return (fp128)a; }` — widening a
`float` value to `long double`. -/
def extendsftf2 (a : FP) : FP := cvt ext64 a

/-- `float __trunctfsf2(fp128 a) { return (float)a; }` — narrowing a
`long double` value to `float` (binary32). -/
def trunctfsf2 (a : FP) : FP := cvt fmt32 a

/-- `fp128 __divtf3(fp128 a, fp128 b) { return a / b; }` for a given
target format: native IEEE division.  Zero divided by zero and the two
infinite-operand indeterminate forms give NaN; a nonzero finite value
divided by zero gives infinity with the XOR of the operand signs; a
finite value divided by infinity gives a signed zero; the remaining
finite quotients are the correctly rounded exact quotients. -/
def fdiv (F : Fmt) : FP → FP → FP
  | .nan, _ => .nan
  | _, .nan => .nan
  | .inf _, .inf _ => .nan
  | .inf s1, .fin s2 _ => .inf (xor s1 s2)
  | .fin s1 _, .inf s2 => .fin (xor s1 s2) 0
  | .fin s1 m1, .fin s2 m2 =>
      if m2 = 0 then (if m1 = 0 then .nan else .inf (xor s1 s2))
      else if m1 = 0 then .fin (xor s1 s2) 0
      else roundQ F (xor s1 s2) (m1 / m2)

/-- `__divtf3` as compiled for the ARM iOS target (`long double` =
binary64). -/
def divtf3 (a b : FP) : FP := fdiv ext64 a b

/-- `fp128 __multf3(fp128 a, fp128 b) { return a * b; }` for a given
target format: native IEEE multiplication (infinity times zero is NaN). -/
def fmul (F : Fmt) : FP → FP → FP
  | .nan, _ => .nan
  | _, .nan => .nan
  | .inf s1, .inf s2 => .inf (xor s1 s2)
  | .inf s1, .fin s2 m2 => if m2 = 0 then .nan else .inf (xor s1 s2)
  | .fin s1 m1, .inf s2 => if m1 = 0 then .nan else .inf (xor s1 s2)
  | .fin s1 m1, .fin s2 m2 =>
      if m1 = 0 ∨ m2 = 0 then .fin (xor s1 s2) 0
      else roundQ F (xor s1 s2) (m1 * m2)

/-- `__multf3` as compiled for the ARM iOS target. -/
def multf3 (a b : FP) : FP := fmul ext64 a b

/-- The integral part (truncation toward zero) of a nonnegative
rational magnitude, computed on its reduced numerator and denominator. -/
def qtrunc (m : ℚ) : ℕ := m.num.toNat / m.den

/-- The truncation toward zero of the signed value of a finite datum
(for a nonnegative magnitude `m`). -/
def sITrunc (s : Bool) (m : ℚ) : ℤ :=
  if s then -(qtrunc m : ℤ) else (qtrunc m : ℤ)

/-- `int __fixtfsi(fp128 a) { return (int)a; }` — C real-to-integer
conversion truncates toward zero; when the truncated value is not
representable in `int` (or the operand is NaN or infinite) the
behaviour is undefined, modelled as `none`. -/
def fixtfsi : FP → Option ℤ
  | .fin s m =>
      if -(2 ^ 31) ≤ sITrunc s m ∧ sITrunc s m < 2 ^ 31
      then some (sITrunc s m) else none
  | _ => none

/-- `unsigned int __fixunstfsi(fp128 a) { return (unsigned int)a; }` —
truncation toward zero; undefined (modelled as `none`) when the
truncated value lies outside `[0, 2^32)`. -/
def fixunstfsi : FP → Option ℕ
  | .fin s m =>
      if 0 ≤ sITrunc s m ∧ sITrunc s m < 2 ^ 32
      then some (sITrunc s m).toNat else none
  | _ => none

/-- `fp128 __floatuntitf(uint64_t a) { return (fp128)a; }` — integer to
floating conversion rounds to nearest when the integer is not exactly
representable.  Compiled for the ARM iOS target (binary64). -/
def floatuntitf (a : ℕ) : FP :=
  if a = 0 then .fin false 0 else roundQ ext64 false (mkRat a 1)

/-- `long double truncq(long double x) { return truncl(x); }` —
truncation toward zero, preserving NaN, infinities and the sign (so
`truncl(-0.3)` is `-0.0`). -/
def truncq : FP → FP
  | .fin s m => .fin s ((qtrunc m : ℕ) : ℚ)
  | x => x

/-- The property of being a well-formed `float` (binary32) datum: NaN,
an infinity, a signed zero, or a sign with a positive magnitude
representable in binary32. -/
def isF32 : FP → Prop
  | .fin _ m => m = 0 ∨ (0 < m ∧ fmt32.Rep m)
  | _ => True

/-- The `long double` nearest to 2.9 — the value the C literal `2.9`
denotes at extended precision (binary64 here). -/
def twoPointNine : FP := roundQ ext64 false (mkRat 29 10)

set_option maxRecDepth 8000 in
/-- Every binary32-representable value is binary64-representable
(format inclusion: more precision, wider exponent range). -/
theorem rep_32_to_64 (q : ℚ) (h : fmt32.Rep q) : ext64.Rep q := by
  obtain ⟨n, e, hn, he, hq, hmax⟩ := h
  have hminmax : fmt32.maxFin ≤ ext64.maxFin := by decide
  refine ⟨n, e, ?_, ?_, hq, le_trans hmax hminmax⟩
  · calc n < 2 ^ 24 := hn
      _ ≤ 2 ^ 53 := by norm_num
  · have he' : (-149 : ℤ) ≤ e := he
    show (-1074 : ℤ) ≤ e
    omega

/-- C5: narrowing a widened `float` value round-trips exactly:
`__trunctfsf2(__extendsftf2(f)) = f` for every binary32 datum `f`
(including NaN, infinities and the signed zeros).  Widening is exact
because binary32 is a subformat of the extended type, and rounding a
value that is already representable in the destination returns it
unchanged. -/
theorem trunctfsf2_extendsftf2 (a : FP) (h : isF32 a) :
    trunctfsf2 (extendsftf2 a) = a := by
  cases a with
  | nan => rfl
  | inf s => rfl
  | fin s m =>
    rcases h with h0 | ⟨hpos, hrep⟩
    · subst h0
      simp [extendsftf2, trunctfsf2, cvt]
    · have h1 : extendsftf2 (.fin s m) = .fin s m := by
        simp only [extendsftf2, cvt]
        rw [if_neg hpos.ne']
        exact roundQ_exact ext64 s m hpos (rep_32_to_64 m hrep)
      rw [h1]
      simp only [trunctfsf2, cvt]
      rw [if_neg hpos.ne']
      exact roundQ_exact fmt32 s m hpos hrep

set_option maxRecDepth 8000 in
/-- Witness for C5 at the binary32 value `3/2`. -/
theorem trunctfsf2_extendsftf2_witness :
    trunctfsf2 (extendsftf2 (.fin false (mkRat 3 2))) =
      .fin false (mkRat 3 2) :=
  trunctfsf2_extendsftf2 _
    (Or.inr ⟨by decide, ⟨3, -1, by decide, by decide, by decide, by decide⟩⟩)

/-- C4: division is total, with IEEE exceptional values instead of
faults: a nonzero finite value divided by zero yields infinity signed by
the XOR of the operand signs, zero divided by zero yields NaN, a zero
dividend with nonzero divisor yields a signed zero, and any other pair
of finite operands yields the correctly rounded native quotient. -/
theorem divtf3_by_zero (s1 s2 : Bool) (m1 m2 : ℚ) :
    (m1 ≠ 0 → divtf3 (.fin s1 m1) (.fin s2 0) = .inf (xor s1 s2)) ∧
      divtf3 (.fin s1 0) (.fin s2 0) = .nan ∧
      (m1 = 0 → m2 ≠ 0 →
        divtf3 (.fin s1 m1) (.fin s2 m2) = .fin (xor s1 s2) 0) ∧
      (m1 ≠ 0 → m2 ≠ 0 →
        divtf3 (.fin s1 m1) (.fin s2 m2) =
          roundQ ext64 (xor s1 s2) (m1 / m2)) := by
  refine ⟨fun h1 => ?_, ?_, fun h1 h2 => ?_, fun h1 h2 => ?_⟩
  · simp [divtf3, fdiv, h1]
  · simp [divtf3, fdiv]
  · simp [divtf3, fdiv, h1, h2]
  · simp [divtf3, fdiv, h1, h2]

/-- Witness for C4 at concrete inputs: `1/0`, `0/0` (opposite zero
signs) and `1/1`. -/
theorem divtf3_by_zero_witness :
    divtf3 (.fin false 1) (.fin false 0) = .inf (xor false false) ∧
      divtf3 (.fin false 0) (.fin true 0) = .nan ∧
      divtf3 (.fin false 1) (.fin false 1) =
        roundQ ext64 (xor false false) (1 / 1) :=
  ⟨(divtf3_by_zero false false 1 0).1 one_ne_zero,
    (divtf3_by_zero false true 0 0).2.1,
    (divtf3_by_zero false false 1 1).2.2.2 one_ne_zero one_ne_zero⟩

/-- The integral part of a nonnegative rational, as computed by the
shim model, agrees with the floor. -/
theorem sITrunc_eq_floor (s : Bool) (m : ℚ) (h : 0 ≤ m) :
    sITrunc s m = if s then -⌊m⌋ else ⌊m⌋ := by
  have h1 : (qtrunc m : ℤ) = ⌊m⌋ := by
    rw [Rat.floor_def]
    unfold qtrunc
    rw [Int.ofNat_tdiv]
    rw [Int.toNat_of_nonneg (Rat.num_nonneg.mpr h),
      Int.tdiv_eq_ediv (Rat.num_nonneg.mpr h) (Int.ofNat_nonneg m.den)]
  cases s
  · simp [sITrunc, h1]
  · simp [sITrunc, h1]

set_option maxRecDepth 8000 in
/-- C6: `__fixtfsi` converts a finite quad whose truncation lies in the
`int` range by truncating toward zero, `__fixunstfsi` likewise into the
`unsigned` range, and both convert the quad literal 2.9 to 2. -/
theorem fixtfsi_trunc (s : Bool) (m : ℚ) :
    (0 ≤ m → -(2 ^ 31) ≤ (if s then -⌊m⌋ else ⌊m⌋) →
      (if s then -⌊m⌋ else ⌊m⌋) < 2 ^ 31 →
        fixtfsi (.fin s m) = some (if s then -⌊m⌋ else ⌊m⌋)) ∧
      (0 ≤ m → 0 ≤ (if s then -⌊m⌋ else ⌊m⌋) →
        (if s then -⌊m⌋ else ⌊m⌋) < 2 ^ 32 →
          fixunstfsi (.fin s m) = some ((if s then -⌊m⌋ else ⌊m⌋)).toNat) ∧
      fixtfsi twoPointNine = some 2 ∧
      fixunstfsi twoPointNine = some 2 := by
  refine ⟨fun h0 hlo hhi => ?_, fun h0 hlo hhi => ?_, ?_, ?_⟩
  · rw [← sITrunc_eq_floor s m h0] at hlo hhi ⊢
    show (if -(2 ^ 31) ≤ sITrunc s m ∧ sITrunc s m < 2 ^ 31
      then some (sITrunc s m) else none) = some (sITrunc s m)
    rw [if_pos ⟨hlo, hhi⟩]
  · rw [← sITrunc_eq_floor s m h0] at hlo hhi ⊢
    show (if 0 ≤ sITrunc s m ∧ sITrunc s m < 2 ^ 32
      then some (sITrunc s m).toNat else none) = some (sITrunc s m).toNat
    rw [if_pos ⟨hlo, hhi⟩]
  · decide
  · decide

/-- Witness for C6 at the in-range value `2`. -/
theorem fixtfsi_trunc_witness :
    fixtfsi (.fin false 2) = some 2 ∧ fixunstfsi (.fin false 2) = some 2 := by
  constructor
  · have h := (fixtfsi_trunc false 2).1 (by norm_num) (by norm_num) (by norm_num)
    simpa using h
  · have h := (fixtfsi_trunc false 2).2.1 (by norm_num) (by norm_num) (by norm_num)
    simpa using h

set_option maxRecDepth 8000 in
/-- C7 (amended): `__floatuntitf` is exact on every 64-bit unsigned
argument with at most 53 significant bits, i.e. every `a < 2^64` of the
form `n * 2^k` with `n ≤ 2^53` — in particular on all `a ≤ 2^53` —
because the extended type backing the quad interface on this target
(binary64) carries a 53-bit significand.  The original claim (exactness
on the whole 64-bit range) fails: `2^53 + 1` is rounded. -/
theorem floatuntitf_exact (a : ℕ) (h64 : a < 2 ^ 64)
    (h : ∃ n k : ℕ, n ≤ 2 ^ 53 ∧ a = n * 2 ^ k) :
    floatuntitf a = .fin false ((a : ℕ) : ℚ) := by
  obtain ⟨n, k, hn, hak⟩ := h
  by_cases h0 : a = 0
  · subst h0
    simp [floatuntitf]
  · have hcast : mkRat (a : ℤ) 1 = ((a : ℕ) : ℚ) := by
      rw [Rat.mkRat_one]
      norm_num
    have hpos : 0 < mkRat (a : ℤ) 1 := by
      rw [hcast]
      exact_mod_cast Nat.pos_of_ne_zero h0
    have hmaxq : mkRat (a : ℤ) 1 ≤ ext64.maxFin := by
      show mkRat (a : ℤ) 1 ≤ qOfScaled (2 ^ 53 - 1) 971
      have hm : qOfScaled (2 ^ 53 - 1) 971 =
          (((2 ^ 53 - 1) * 2 ^ 971 : ℕ) : ℚ) := by
        show mkRat (((2 ^ 53 - 1) * 2 ^ 971 : ℕ) : ℤ) 1 = _
        rw [Rat.mkRat_one]
        norm_num
      rw [hcast, hm]
      have hle : a ≤ (2 ^ 53 - 1) * 2 ^ 971 := by
        calc a ≤ 2 ^ 64 := h64.le
          _ ≤ 2 ^ 52 * 2 ^ 971 := by
              rw [← pow_add]
              exact Nat.pow_le_pow_right (by norm_num) (by norm_num)
          _ ≤ (2 ^ 53 - 1) * 2 ^ 971 :=
              Nat.mul_le_mul_right _ (by norm_num)
      exact_mod_cast hle
    have hrep : ext64.Rep (mkRat (a : ℤ) 1) := by
      rcases lt_or_eq_of_le hn with hlt | heq
      · refine ⟨n, (k : ℤ), hlt, ?_, ?_, hmaxq⟩
        · show (-1074 : ℤ) ≤ (k : ℤ)
          omega
        · show mkRat (a : ℤ) 1 = mkRat ((n * 2 ^ k : ℕ) : ℤ) 1
          rw [hak]
      · subst heq
        refine ⟨2 ^ 52, ((k + 1 : ℕ) : ℤ), by decide, ?_, ?_, hmaxq⟩
        · show (-1074 : ℤ) ≤ ((k + 1 : ℕ) : ℤ)
          omega
        · show mkRat (a : ℤ) 1 = mkRat ((2 ^ 52 * 2 ^ (k + 1) : ℕ) : ℤ) 1
          have h2 : (2 : ℕ) ^ 53 * 2 ^ k = 2 ^ 52 * 2 ^ (k + 1) := by
            rw [pow_succ]
            ring
          rw [hak, h2]
    have hr := roundQ_exact ext64 false (mkRat (a : ℤ) 1) hpos hrep
    rw [floatuntitf, if_neg h0, hr, hcast]

/-- Witness for C7's amended theorem at `a = 5` (below `2^53`) and at
`a = 2^54` (one significant bit, above `2^53`). -/
theorem floatuntitf_exact_witness :
    floatuntitf 5 = .fin false ((5 : ℕ) : ℚ) ∧
      floatuntitf (2 ^ 54) = .fin false ((2 ^ 54 : ℕ) : ℚ) :=
  ⟨floatuntitf_exact 5 (by norm_num) ⟨5, 0, by norm_num, by norm_num⟩,
    floatuntitf_exact (2 ^ 54) (by norm_num) ⟨1, 54, by norm_num, by norm_num⟩⟩

set_option maxRecDepth 8000 in
/-- C7 counterexample: with a binary64-backed `long double` (the ARM
iOS target this file is compiled for), `__floatuntitf(2^53 + 1)` rounds
to `2^53` (round to nearest, ties to even), so the result is not
numerically equal to the argument. -/
theorem floatuntitf_rounds :
    floatuntitf (2 ^ 53 + 1) = .fin false (mkRat (2 ^ 53) 1) ∧
      floatuntitf (2 ^ 53 + 1) ≠ .fin false (mkRat (2 ^ 53 + 1) 1) := by
  constructor
  · decide
  · decide

/-- C8: every routine in the shim is a pure, deterministic function of
its value arguments: two calls of the same routine on equal arguments
return equal results.  In this model each routine is a closed function
of its operands — there is no shared or mutable state it could read or
write. -/
theorem shim_deterministic (a b a' b' : FP) (u u' : ℕ)
    (ha : a = a') (hb : b = b') (hu : u = u') :
    divtf3 a b = divtf3 a' b' ∧ multf3 a b = multf3 a' b' ∧
      eqtf2 a b = eqtf2 a' b' ∧ netf2 a b = netf2 a' b' ∧
      lttf2 a b = lttf2 a' b' ∧ gttf2 a b = gttf2 a' b' ∧
      getf2 a b = getf2 a' b' ∧ letf2 a b = letf2 a' b' ∧
      extendsftf2 a = extendsftf2 a' ∧ trunctfsf2 a = trunctfsf2 a' ∧
      fixtfsi a = fixtfsi a' ∧ fixunstfsi a = fixunstfsi a' ∧
      floatuntitf u = floatuntitf u' ∧ truncq a = truncq a' := by
  subst ha hb hu
  exact ⟨rfl, rfl, rfl, rfl, rfl, rfl, rfl, rfl, rfl, rfl, rfl, rfl, rfl, rfl⟩

/-- Witness for C8 at concrete arguments. -/
theorem shim_deterministic_witness :
    divtf3 .nan .nan = divtf3 .nan .nan ∧ multf3 .nan .nan = multf3 .nan .nan ∧
      eqtf2 .nan .nan = eqtf2 .nan .nan ∧ netf2 .nan .nan = netf2 .nan .nan ∧
      lttf2 .nan .nan = lttf2 .nan .nan ∧ gttf2 .nan .nan = gttf2 .nan .nan ∧
      getf2 .nan .nan = getf2 .nan .nan ∧ letf2 .nan .nan = letf2 .nan .nan ∧
      extendsftf2 .nan = extendsftf2 .nan ∧
      trunctfsf2 .nan = trunctfsf2 .nan ∧
      fixtfsi .nan = fixtfsi .nan ∧ fixunstfsi .nan = fixunstfsi .nan ∧
      floatuntitf 0 = floatuntitf 0 ∧ truncq .nan = truncq .nan :=
  shim_deterministic .nan .nan .nan .nan 0 0 rfl rfl rfl
